import Mathlib

/-!
Verification of the text-spotting sequential-inference orchestration
(`tools/accuracy_checker/custom_evaluators/text_spotting_evaluator.py`).

The shallow embedding below translates the orchestration code of
`SequentialModel` and `DetectorDLSDKModel` into Lean:

* numpy arrays are modelled as a flat row-major list of rationals together
  with a shape (`NpArray`); `np.argmax`, `np.reshape`, `np.transpose` and
  `np.zeros` are given executable counterparts faithful to numpy semantics;
* the autoregressive decode loop of `SequentialModel.predict`
  (lines 191-203 of the source) is `decodeLoop`; besides the accumulated
  text and the loop variable `hidden` it also returns the list of decoder
  invocations that took place (`StepRec`), so that properties about the
  number of steps and the hidden-state threading can be stated;
* fallible Python operations (assert, out-of-range indexing, forced
  reshape) return `Except PredictError`;
* the backend inference engine, the encoder network, the decoder network
  and the adapter are abstract function parameters, exactly as they are
  opaque collaborators of the orchestration code; the number of backend
  inference invocations actually performed is returned in a `CallLog`.
-/

namespace TextSpotting

/-- Errors the Python code can raise while predicting: a failed `assert`,
an out-of-range sequence index (`IndexError`), and a failed forced
`reshape` (`ValueError`). -/
inductive PredictError where
  | assertionError : PredictError
  | indexError : PredictError
  | valueError : PredictError
deriving DecidableEq, Repr

/-- A numpy ndarray: a shape and the flat row-major data. -/
structure NpArray where
  shape : List ℕ
  data : List ℚ
deriving DecidableEq, Repr

/-- `np.zeros(shape)`: an all-zero array of the given shape. -/
def npZeros (shape : List ℕ) : NpArray :=
  ⟨shape, List.replicate shape.prod 0⟩

/-- Element access of a rank-3 array at multi-index `(i, j, k)`,
row-major. -/
def NpArray.get3 (a : NpArray) (i j k : ℕ) : ℚ :=
  a.data.getD (i * (a.shape.getD 1 0 * a.shape.getD 2 0) + j * a.shape.getD 2 0 + k) 0

/-- Element access of a rank-4 array at multi-index `(i, j, k, l)`,
row-major. -/
def NpArray.get4 (a : NpArray) (i j k l : ℕ) : ℚ :=
  a.data.getD
    (((i * a.shape.getD 1 0 + j) * a.shape.getD 2 0 + k) * a.shape.getD 3 0 + l) 0

/-- `np.reshape(a, (a.shape[0], a.shape[1], -1))` (line 181 of the source):
keep the first two axes, flatten the rest; the flat data is unchanged. -/
def reshapeKeepFirstTwo (a : NpArray) : NpArray :=
  let s0 := a.shape.getD 0 0
  let s1 := a.shape.getD 1 0
  ⟨[s0, s1, a.shape.prod / (s0 * s1)], a.data⟩

/-- `np.transpose(a, (0, 2, 1))` (line 182 of the source) on a rank-3
array: output shape `[s0, s2, s1]` and `out[i, j, k] = a[i, k, j]`,
laid out row-major. -/
def transpose021 (a : NpArray) : NpArray :=
  let s0 := a.shape.getD 0 0
  let s1 := a.shape.getD 1 0
  let s2 := a.shape.getD 2 0
  ⟨[s0, s2, s1],
    (List.range (s0 * s2 * s1)).map (fun n =>
      let i := n / (s2 * s1)
      let r := n % (s2 * s1)
      let j := r / s1
      let k := r % s1
      a.get3 i k j)⟩

/-- `np.transpose(a, (0, 3, 1, 2))` (line 250 of the source) on a rank-4
array: output shape `[s0, s3, s1, s2]` and `out[i, j, k, l] = a[i, k, l, j]`,
laid out row-major. -/
def transpose0312 (a : NpArray) : NpArray :=
  let s0 := a.shape.getD 0 0
  let s1 := a.shape.getD 1 0
  let s2 := a.shape.getD 2 0
  let s3 := a.shape.getD 3 0
  ⟨[s0, s3, s1, s2],
    (List.range (s0 * s3 * s1 * s2)).map (fun n =>
      let i := n / (s3 * s1 * s2)
      let r := n % (s3 * s1 * s2)
      let j := r / (s1 * s2)
      let r2 := r % (s1 * s2)
      let k := r2 / s2
      let l := r2 % s2
      a.get4 i k l j)⟩

/-- `ndarray.reshape(shape)` with an explicit target shape (line 251 of the
source): succeeds iff the element count matches, else numpy raises
`ValueError`. -/
def npReshapeTo (a : NpArray) (s : List ℕ) : Except PredictError NpArray :=
  if a.data.length = s.prod then .ok ⟨s, a.data⟩ else .error .valueError

/-- Auxiliary loop for `np.argmax`: tracks the best index, the index of the
next element, and the best value; a later element replaces the best only
when strictly greater, so ties keep the lowest index, as numpy does. -/
def argmaxAux : List ℚ → ℕ → ℕ → ℚ → ℕ
  | [], best, _, _ => best
  | x :: xs, best, cur, bestVal =>
    if bestVal < x then argmaxAux xs cur (cur + 1) x
    else argmaxAux xs best (cur + 1) bestVal

/-- `np.argmax` over a vector: the first index attaining the maximum
(line 199 of the source applies it to the single row of the `(1, vocab)`
symbols distribution). The empty list yields 0; the code never applies it
to an empty distribution. -/
def npArgmax : List ℚ → ℕ
  | [] => 0
  | x :: xs => argmaxAux xs 0 1 x

/-- The two named outputs of one decoder inference
(`symbols_distribution` is the single row of the `(1, vocab)` array,
`cur_hidden` the next hidden state). -/
structure DecoderOut where
  symbolsDistribution : List ℚ
  curHidden : NpArray
deriving DecidableEq, Repr

/-- A decoder step function: the `recognizer_decoder` network applied to
`(prev_symbol, prev_hidden)`; the encoder context is fixed per instance
and is supplied by partial application. -/
def Decoder : Type := ℕ → NpArray → DecoderOut

/-- Record of one decoder invocation inside the decode loop: the hidden
state and previous-symbol fed in, the argmax symbol index obtained from the
symbols distribution, and the `cur_hidden` output. -/
structure StepRec where
  hiddenIn : NpArray
  prevSymIn : ℕ
  symbolIdx : ℕ
  curHiddenOut : NpArray
deriving DecidableEq, Repr

/-- The autoregressive decode loop of `SequentialModel.predict`
(lines 191-203 of the source), run with `fuel = max_seq_len`:

    for i in range(self.max_seq_len):
        decoder_outputs = self.recognizer_decoder.predict(...)
        prev_symbol_index = np.argmax(coder_output, axis=1)
        if prev_symbol_index == self.eos_index:
            break
        hidden = decoder_outputs[...]['cur_hidden']
        text += self.alphabet[int(prev_symbol_index)]

Returns the list of decoder invocations performed, and either the final
`(text, hidden)` pair or the `IndexError` that `self.alphabet[...]` raises
when the symbol index is not below the alphabet's length. -/
def decodeLoop (dec : Decoder) (alphabet : List Char) (eosIndex : ℕ) :
    ℕ → NpArray → ℕ → List Char →
    List StepRec × Except PredictError (List Char × NpArray)
  | 0, hidden, _, text => ([], .ok (text, hidden))
  | fuel + 1, hidden, prevSym, text =>
    let out := dec prevSym hidden
    let idx := npArgmax out.symbolsDistribution
    let step : StepRec := ⟨hidden, prevSym, idx, out.curHidden⟩
    if idx = eosIndex then ([step], .ok (text, hidden))
    else
      if idx < alphabet.length then
        let rest := decodeLoop dec alphabet eosIndex fuel out.curHidden idx
          (text ++ [alphabet.getD idx default])
        (step :: rest.1, rest.2)
      else ([step], .error .indexError)

/-- The reshape-transpose applied to the raw encoder output before
decoding (lines 181-182 of the source). -/
def encoderContext (raw : NpArray) : NpArray :=
  transpose021 (reshapeKeepFirstTwo raw)

/-- Configuration of `SequentialModel` relevant to decoding: the alphabet,
the control indices, the length cap, and the decoder network's declared
`prev_hidden` input shape. -/
structure SeqConfig where
  alphabet : List Char
  sosIndex : ℕ
  eosIndex : ℕ
  maxSeqLen : ℕ
  hiddenShape : List ℕ
deriving Repr

/-- Decoding of a single detected instance from its feature map, as the
body of the `for feature in text_features` loop performs it (lines
179-204): run the encoder, reshape/transpose its output, zero the hidden
state, start from `sos_index`, and run the decode loop. Returns the trace
of decoder invocations and the decoded text. -/
def decodeInstance (cfg : SeqConfig) (encoder : NpArray → NpArray)
    (decoder : NpArray → Decoder) (feature : NpArray) :
    List StepRec × Except PredictError (List Char × NpArray) :=
  let ctx := encoderContext (encoder feature)
  decodeLoop (decoder ctx) cfg.alphabet cfg.eosIndex cfg.maxSeqLen
    (npZeros cfg.hiddenShape) cfg.sosIndex []

/-- The decoded text of a single instance (the loop's `text` accumulator
at exit), or the error that aborted its decoding. -/
def instanceText (cfg : SeqConfig) (encoder : NpArray → NpArray)
    (decoder : NpArray → Decoder) (feature : NpArray) :
    Except PredictError (List Char) :=
  (decodeInstance cfg encoder decoder feature).2.map Prod.fst

/-- The detector's output mapping: the `text_features` entry (one feature
map per detected instance) plus all other entries, opaque to the
orchestration and passed through to the adapter. -/
structure DetectorOutput (M : Type) where
  textFeatures : List NpArray
  passthrough : M
deriving Repr

/-- The `for feature in text_features` loop of `SequentialModel.predict`
(lines 178-204): decode every instance in order, collecting the texts; any
error aborts the whole call. Also returns the numbers of encoder and
decoder backend inferences performed. -/
def processFeatures (cfg : SeqConfig) (encoder : NpArray → NpArray)
    (decoder : NpArray → Decoder) :
    List NpArray → Except PredictError (List (List Char)) × (ℕ × ℕ)
  | [] => (.ok [], (0, 0))
  | f :: fs =>
    let r := decodeInstance cfg encoder decoder f
    match r.2 with
    | .error e => (.error e, (1, r.1.length))
    | .ok (text, _) =>
      let rest := processFeatures cfg encoder decoder fs
      match rest.1 with
      | .error e => (.error e, (1 + rest.2.1, r.1.length + rest.2.2))
      | .ok ts => (.ok (text :: ts), (1 + rest.2.1, r.1.length + rest.2.2))

/-- Numbers of backend inference invocations performed during one
`predict` call: by the detector network, the encoder network, and the
decoder network. -/
structure CallLog where
  detectorCalls : ℕ
  encoderCalls : ℕ
  decoderCalls : ℕ
deriving DecidableEq, Repr

/-- `SequentialModel.predict` (lines 172-210 of the source): assert a
single identifier, run the detector, decode every `text_features` entry
into a text, attach the texts and hand the result to the adapter. The
detector is an abstract function that also reports how many backend
inferences it performed; the adapter receives the detector output together
with the attached `texts` collection. -/
def sequentialPredict {M P : Type} (cfg : SeqConfig)
    (detector : NpArray → Except PredictError (DetectorOutput M) × ℕ)
    (encoder : NpArray → NpArray) (decoder : NpArray → Decoder)
    (adapter : DetectorOutput M → List (List Char) → P)
    (identifiers : List ℕ) (inputData : NpArray) :
    Except PredictError P × CallLog :=
  if identifiers.length = 1 then
    match detector inputData with
    | (.error e, n) => (.error e, ⟨n, 0, 0⟩)
    | (.ok dout, n) =>
      let r := processFeatures cfg encoder decoder dout.textFeatures
      match r.1 with
      | .error e => (.error e, ⟨n, r.2.1, r.2.2⟩)
      | .ok texts => (.ok (adapter dout texts), ⟨n, r.2.1, r.2.2⟩)
  else (.error .assertionError, ⟨0, 0, 0⟩)

/-- The detector network's interface as `DetectorDLSDKModel.__init__`
sees it: the named inputs with their declared shapes. -/
structure DetectorNet where
  inputs : List (String × List ℕ)
deriving Repr

/-- `self.im_info_name` (line 230 of the source): the first network input
whose declared shape has 2 elements; `none` models the `IndexError` the
comprehension-indexing raises when there is no such input. -/
def imInfoName (net : DetectorNet) : Option String :=
  ((net.inputs.filter (fun p => p.2.length = 2)).head?).map Prod.fst

/-- `self.im_data_name` (line 231 of the source): the first network input
whose declared shape has 4 elements. -/
def imDataName (net : DetectorNet) : Option String :=
  ((net.inputs.filter (fun p => p.2.length = 4)).head?).map Prod.fst

/-- The declared shape of a named network input
(`self.network.inputs[name].shape`). -/
def declaredShape (net : DetectorNet) (name : String) : List ℕ :=
  ((net.inputs.filter (fun p => p.1 = name)).head?).map Prod.snd |>.getD []

/-- `DetectorDLSDKModel.fit_to_input` (lines 249-253 of the source):
transpose the channel-last image to channel-first with
`np.transpose(input_data, (0, 3, 1, 2))`, then force-reshape it to the
network's declared image input shape. -/
def fitToInput (net : DetectorNet) (dataName : String) (inputData : NpArray) :
    Except PredictError NpArray :=
  npReshapeTo (transpose0312 inputData) (declaredShape net dataName)

/-- The `im_info` tensor built on lines 239-240 of the source:
`np.array([[input_data.shape[1], input_data.shape[2], 1.0]])`, i.e. a
`(1, 3)` array holding height, width and scale 1. -/
def imInfoTensor (inputData : NpArray) : NpArray :=
  ⟨[1, 3], [(inputData.shape.getD 1 0 : ℚ), (inputData.shape.getD 2 0 : ℚ), 1]⟩

/-- The named-input assignment `DetectorDLSDKModel.predict` hands to
`self.exec_network.infer` (lines 238-240 of the source): the fitted image
under `im_data_name` and the info tensor under `im_info_name`. Fails when
a name is missing (construction would already have failed) or when the
forced reshape fails. -/
def detectorFeed (net : DetectorNet) (inputData : NpArray) :
    Except PredictError (List (String × NpArray)) :=
  match imDataName net, imInfoName net with
  | some dataName, some infoName => do
    let fitted ← fitToInput net dataName inputData
    .ok [(dataName, fitted), (infoName, imInfoTensor inputData)]
  | _, _ => .error .indexError

/-- `DetectorDLSDKModel.predict` (lines 233-244 of the source): assert the
input is 4-dimensional with batch dimension 1, build the two named input
tensors, and run one backend inference. Returns the result together with
the number of backend inferences performed. -/
def detectorPredict {M : Type} (net : DetectorNet)
    (infer : List (String × NpArray) → DetectorOutput M) (inputData : NpArray) :
    Except PredictError (DetectorOutput M) × ℕ :=
  if inputData.shape.length = 4 then
    if inputData.shape.getD 0 0 = 1 then
      match detectorFeed net inputData with
      | .error e => (.error e, 0)
      | .ok feed => (.ok (infer feed), 1)
    else (.error .assertionError, 0)
  else (.error .assertionError, 0)

/-- The `network_info` configuration mapping as `SequentialModel.__init__`
reads it: each key either present with its value or absent. The three
sub-model entries are opaque here (their own artifact paths are consumed
by the sub-model constructors). -/
structure NetworkInfo where
  detector : Option Unit
  recognizerEncoder : Option Unit
  recognizerDecoder : Option Unit
  recognizerDecoderInputs : Option (String × String × String)
  recognizerDecoderOutputs : Option (String × String)
  maxSeqLen : Option ℕ
  adapter : Option String
  alphabet : Option (List Char)
  sosIndex : Option ℕ
  eosIndex : Option ℕ
deriving Repr

/-- Errors `SequentialModel.__init__` can raise: the explicit
`ConfigError` of the `contains_all` check, and the `KeyError` that a
`network_info[...]` lookup of a missing key raises. -/
inductive InitError where
  | configError : InitError
  | keyError : InitError
deriving DecidableEq, Repr

/-- `SequentialModel.__init__` (lines 157-170 of the source): first the
`contains_all` check over `detector`, `recognizer_encoder` and
`recognizer_decoder` (raising `ConfigError`), then the direct lookups of
`recognizer_decoder_inputs`, `recognizer_decoder_outputs`, `max_seq_len`,
`adapter`, `alphabet`, `sos_index` and `eos_index` in source order (each
raising `KeyError` when absent). Returns the decoded configuration values
`(alphabet, sos_index, eos_index, max_seq_len)`; constructed state
irrelevant to the claims (sub-model handles, adapter object) is
dropped. -/
def sequentialModelInit (ni : NetworkInfo) :
    Except InitError (List Char × ℕ × ℕ × ℕ) :=
  if ni.detector.isSome ∧ ni.recognizerEncoder.isSome ∧ ni.recognizerDecoder.isSome then
    match ni.recognizerDecoderInputs with
    | none => .error .keyError
    | some _ =>
      match ni.recognizerDecoderOutputs with
      | none => .error .keyError
      | some _ =>
        match ni.maxSeqLen with
        | none => .error .keyError
        | some maxSeqLen =>
          match ni.adapter with
          | none => .error .keyError
          | some _ =>
            match ni.alphabet with
            | none => .error .keyError
            | some alphabet =>
              match ni.sosIndex with
              | none => .error .keyError
              | some sosIndex =>
                match ni.eosIndex with
                | none => .error .keyError
                | some eosIndex => .ok (alphabet, sosIndex, eosIndex, maxSeqLen)
  else .error .configError


/-! ### Decidability of result comparison, and concrete fixtures used to
exercise the definitions on explicit inputs -/

instance {e a : Type} [DecidableEq e] [DecidableEq a] : DecidableEq (Except e a)
  | .error x, .error y => decidable_of_iff (x = y) (by simp)
  | .error _, .ok _ => isFalse (by simp)
  | .ok _, .error _ => isFalse (by simp)
  | .ok x, .ok y => decidable_of_iff (x = y) (by simp)

/-- An encoder stub: the identity on feature maps. -/
def idEnc : NpArray → NpArray := id

/-- A one-element feature map. -/
def feat0 : NpArray := ⟨[1, 1, 1, 1], [0]⟩

/-- A decoder stub that always emits the same symbols distribution and a
zero hidden state, regardless of context, previous symbol and hidden
state. -/
def constDec (dist : List ℚ) : NpArray → Decoder := fun _ _ _ => ⟨dist, npZeros [1]⟩

/-- A configuration with alphabet `s x e`, `sos_index = 0`, `eos_index = 2`
and `max_seq_len = 2`. -/
def cfgS : SeqConfig := ⟨['s', 'x', 'e'], 0, 2, 2, [1]⟩

/-- The same configuration with `max_seq_len = 1`. -/
def cfgE : SeqConfig := ⟨['s', 'x', 'e'], 0, 2, 1, [1]⟩

/-- The same configuration with `max_seq_len = 3`. -/
def cfg3 : SeqConfig := ⟨['s', 'x', 'e'], 0, 2, 3, [1]⟩

/-- The same configuration with a one-character alphabet, so that symbol
index 1 is out of range. -/
def cfgBad : SeqConfig := ⟨['s'], 0, 2, 2, [1]⟩

/-- A concrete non-zero hidden state. -/
def hidA : NpArray := ⟨[1], [5]⟩

/-- Another concrete non-zero hidden state. -/
def hidB : NpArray := ⟨[1], [7]⟩

/-- A decoder stub that emits symbol 1 with next hidden state `hidA` when
the previous symbol is the start symbol 0, and EOS (symbol 2) with next
hidden state `hidB` afterwards. -/
def decC3 : NpArray → Decoder :=
  fun _ s _ => if s = 0 then ⟨[0, 1, 0], hidA⟩ else ⟨[0, 0, 1], hidB⟩

/-- A detector output with exactly one instance feature map. -/
def detOut1 : DetectorOutput Unit := ⟨[feat0], ()⟩

/-- A detector stub returning `detOut1` after one backend inference. -/
def det1 : NpArray → Except PredictError (DetectorOutput Unit) × ℕ :=
  fun _ => (.ok detOut1, 1)

/-- A detector stub reporting zero detected instances after one backend
inference. -/
def detEmpty : NpArray → Except PredictError (DetectorOutput Unit) × ℕ :=
  fun _ => (.ok ⟨[], ()⟩, 1)

/-- A detector network with a 2-element-shape input and a
4-element-shape input. -/
def net0 : DetectorNet := ⟨[("im_info", [1, 3]), ("im_data", [1, 2, 2, 2])]⟩

/-- A concrete raw encoder output of shape `(1, 2, 1, 2)`. -/
def rawC : NpArray := ⟨[1, 2, 1, 2], [0, 1, 2, 3]⟩

/-- A `network_info` with every required key present except `eos_index`. -/
def ni0 : NetworkInfo :=
  ⟨some (), some (), some (), some ("ps", "ph", "eo"), some ("sd", "ch"),
    some 5, some "ad", some ['a'], some 0, none⟩

/-! ### Lemmas about the decode loop -/

/-- The loop performs at most `fuel` decoder invocations. -/
theorem decodeLoop_trace_length_le (dec : Decoder) (a : List Char) (e fuel : ℕ)
    (hidden : NpArray) (prevSym : ℕ) (text : List Char) :
    (decodeLoop dec a e fuel hidden prevSym text).1.length ≤ fuel := by
  induction fuel generalizing hidden prevSym text with
  | zero => simp [decodeLoop]
  | succ n ih =>
    simp only [decodeLoop]
    by_cases heq : npArgmax (dec prevSym hidden).symbolsDistribution = e
    · rw [if_pos heq]
      simp
    · rw [if_neg heq]
      by_cases hin : npArgmax (dec prevSym hidden).symbolsDistribution < a.length
      · rw [if_pos hin]
        dsimp only
        simp only [List.length_cons]
        exact Nat.succ_le_succ (ih ..)
      · rw [if_neg hin]
        simp

/-- The first decoder invocation of the loop receives the initial hidden
state and the initial previous-symbol index. -/
theorem decodeLoop_head (dec : Decoder) (a : List Char) (e fuel : ℕ)
    (hidden : NpArray) (prevSym : ℕ) (text : List Char) (r : StepRec)
    (h : (decodeLoop dec a e fuel hidden prevSym text).1[0]? = some r) :
    r.hiddenIn = hidden ∧ r.prevSymIn = prevSym := by
  cases fuel with
  | zero => simp [decodeLoop] at h
  | succ n =>
    simp only [decodeLoop] at h
    by_cases heq : npArgmax (dec prevSym hidden).symbolsDistribution = e
    · rw [if_pos heq] at h
      simp only [List.getElem?_cons_zero, Option.some.injEq] at h
      rw [← h]
      exact ⟨rfl, rfl⟩
    · rw [if_neg heq] at h
      by_cases hin : npArgmax (dec prevSym hidden).symbolsDistribution < a.length
      · rw [if_pos hin] at h
        dsimp only at h
        simp only [List.getElem?_cons_zero, Option.some.injEq] at h
        rw [← h]
        exact ⟨rfl, rfl⟩
      · rw [if_neg hin] at h
        simp only [List.getElem?_cons_zero, Option.some.injEq] at h
        rw [← h]
        exact ⟨rfl, rfl⟩

/-- Every decoder invocation except possibly the final one produced a
non-EOS symbol: an EOS step immediately stops the loop. -/
theorem decodeLoop_dropLast_ne_eos (dec : Decoder) (a : List Char) (e fuel : ℕ)
    (hidden : NpArray) (prevSym : ℕ) (text : List Char) (r : StepRec)
    (h : r ∈ (decodeLoop dec a e fuel hidden prevSym text).1.dropLast) :
    r.symbolIdx ≠ e := by
  induction fuel generalizing hidden prevSym text with
  | zero => simp [decodeLoop] at h
  | succ n ih =>
    simp only [decodeLoop] at h
    by_cases heq : npArgmax (dec prevSym hidden).symbolsDistribution = e
    · rw [if_pos heq] at h
      simp at h
    · rw [if_neg heq] at h
      by_cases hin : npArgmax (dec prevSym hidden).symbolsDistribution < a.length
      · rw [if_pos hin] at h
        dsimp only at h
        rcases List.eq_nil_or_concat (decodeLoop dec a e n (dec prevSym hidden).curHidden
            (npArgmax (dec prevSym hidden).symbolsDistribution)
            (text ++ [a.getD (npArgmax (dec prevSym hidden).symbolsDistribution) default])).1
          with hnil | ⟨l2, b, hl⟩
        · rw [hnil] at h
          simp at h
        · rw [hl, List.concat_eq_append, ← List.cons_append, List.dropLast_concat] at h
          rcases List.mem_cons.mp h with h1 | h2
          · subst h1
            simpa using heq
          · exact ih _ _ _
              (by rw [hl, List.concat_eq_append, List.dropLast_concat]; exact h2)
      · rw [if_neg hin] at h
        simp at h

/-- Characterization of the accumulated text of a successful decode run:
it extends the initial accumulator with exactly the alphabet characters at
the non-EOS argmax indices of the trace, in order. -/
theorem decodeLoop_text_eq (dec : Decoder) (a : List Char) (e fuel : ℕ)
    (hidden : NpArray) (prevSym : ℕ) (text t : List Char) (h2 : NpArray)
    (hok : (decodeLoop dec a e fuel hidden prevSym text).2 = .ok (t, h2)) :
    t = text ++ (decodeLoop dec a e fuel hidden prevSym text).1.filterMap
      (fun r => if r.symbolIdx = e then none else a.get? r.symbolIdx) := by
  induction fuel generalizing hidden prevSym text with
  | zero =>
    simp only [decodeLoop] at hok ⊢
    simp at hok
    simp [hok.1]
  | succ n ih =>
    simp only [decodeLoop] at hok ⊢
    by_cases heq : npArgmax (dec prevSym hidden).symbolsDistribution = e
    · rw [if_pos heq] at hok ⊢
      simp at hok
      simp [heq, hok.1]
    · rw [if_neg heq] at hok ⊢
      by_cases hin : npArgmax (dec prevSym hidden).symbolsDistribution < a.length
      · rw [if_pos hin] at hok ⊢
        dsimp only at hok ⊢
        have hrec := ih (dec prevSym hidden).curHidden
          (npArgmax (dec prevSym hidden).symbolsDistribution)
          (text ++ [a.getD (npArgmax (dec prevSym hidden).symbolsDistribution) default]) hok
        have hsome : a.get? (npArgmax (dec prevSym hidden).symbolsDistribution) =
            some (a.getD (npArgmax (dec prevSym hidden).symbolsDistribution) default) := by
          rw [List.get?_eq_getElem?, List.getElem?_eq_getElem hin,
            List.getD_eq_getElem a default hin]
        rw [hrec, List.append_assoc]
        congr 1
        simp only [List.filterMap_cons]
        rw [if_neg heq, hsome]
        simp
      · rw [if_neg hin] at hok
        simp at hok

/-- A successful decode run that performed fewer than `fuel` decoder
invocations stopped because its final invocation produced EOS. -/
theorem decodeLoop_early_stop (dec : Decoder) (a : List Char) (e fuel : ℕ)
    (hidden : NpArray) (prevSym : ℕ) (text t : List Char) (h2 : NpArray)
    (hok : (decodeLoop dec a e fuel hidden prevSym text).2 = .ok (t, h2))
    (hlt : (decodeLoop dec a e fuel hidden prevSym text).1.length < fuel) :
    ∃ last, (decodeLoop dec a e fuel hidden prevSym text).1.getLast? = some last ∧
      last.symbolIdx = e := by
  induction fuel generalizing hidden prevSym text with
  | zero => omega
  | succ n ih =>
    simp only [decodeLoop] at hok hlt ⊢
    by_cases heq : npArgmax (dec prevSym hidden).symbolsDistribution = e
    · rw [if_pos heq]
      exact ⟨_, rfl, heq⟩
    · rw [if_neg heq] at hok hlt ⊢
      by_cases hin : npArgmax (dec prevSym hidden).symbolsDistribution < a.length
      · rw [if_pos hin] at hok hlt ⊢
        dsimp only at hok hlt ⊢
        simp only [List.length_cons] at hlt
        obtain ⟨last, hlast, heos⟩ := ih (dec prevSym hidden).curHidden
          (npArgmax (dec prevSym hidden).symbolsDistribution)
          (text ++ [a.getD (npArgmax (dec prevSym hidden).symbolsDistribution) default]) hok
          (by omega)
        refine ⟨last, ?_, heos⟩
        have hne2 : (decodeLoop dec a e n (dec prevSym hidden).curHidden
            (npArgmax (dec prevSym hidden).symbolsDistribution)
            (text ++ [a.getD (npArgmax (dec prevSym hidden).symbolsDistribution) default])).1
            ≠ [] := by
          intro hnil
          rw [hnil] at hlast
          simp at hlast
        rw [List.getLast?_cons, hlast]
        simp [hne2]
      · rw [if_neg hin] at hok
        simp at hok

/-- State-threading invariant: the hidden state fed into decoder
invocation `i + 1` of the trace is exactly the `cur_hidden` output of
invocation `i`. -/
theorem decodeLoop_threading (dec : Decoder) (a : List Char) (e fuel : ℕ)
    (hidden : NpArray) (prevSym : ℕ) (text : List Char) (i : ℕ) (r0 r1 : StepRec)
    (h0 : (decodeLoop dec a e fuel hidden prevSym text).1[i]? = some r0)
    (h1 : (decodeLoop dec a e fuel hidden prevSym text).1[i + 1]? = some r1) :
    r1.hiddenIn = r0.curHiddenOut := by
  induction fuel generalizing hidden prevSym text i with
  | zero => simp [decodeLoop] at h0
  | succ n ih =>
    simp only [decodeLoop] at h0 h1
    by_cases heq : npArgmax (dec prevSym hidden).symbolsDistribution = e
    · rw [if_pos heq] at h0 h1
      simp at h1
    · rw [if_neg heq] at h0 h1
      by_cases hin : npArgmax (dec prevSym hidden).symbolsDistribution < a.length
      · rw [if_pos hin] at h0 h1
        dsimp only at h0 h1
        cases i with
        | zero =>
          simp only [List.getElem?_cons_zero, Option.some.injEq] at h0
          rw [List.getElem?_cons_succ] at h1
          have := decodeLoop_head dec a e n (dec prevSym hidden).curHidden
            (npArgmax (dec prevSym hidden).symbolsDistribution)
            (text ++ [a.getD (npArgmax (dec prevSym hidden).symbolsDistribution) default])
            r1 h1
          rw [this.1, ← h0]
        | succ j =>
          rw [List.getElem?_cons_succ] at h0 h1
          exact ih _ _ _ j h0 h1
      · rw [if_neg hin] at h0 h1
        simp at h1

/-- When a decode run ends on an EOS invocation, the hidden state at exit
is the one fed INTO that invocation: the EOS step's `cur_hidden` output is
discarded. -/
theorem decodeLoop_eos_final_hidden (dec : Decoder) (a : List Char) (e fuel : ℕ)
    (hidden : NpArray) (prevSym : ℕ) (text t : List Char) (h2 : NpArray)
    (last : StepRec)
    (hok : (decodeLoop dec a e fuel hidden prevSym text).2 = .ok (t, h2))
    (hlast : (decodeLoop dec a e fuel hidden prevSym text).1.getLast? = some last)
    (heos : last.symbolIdx = e) :
    h2 = last.hiddenIn := by
  induction fuel generalizing hidden prevSym text with
  | zero => simp [decodeLoop] at hlast
  | succ n ih =>
    simp only [decodeLoop] at hok hlast
    by_cases heq : npArgmax (dec prevSym hidden).symbolsDistribution = e
    · rw [if_pos heq] at hok hlast
      simp at hok hlast
      rw [← hlast]
      exact hok.2.symm
    · rw [if_neg heq] at hok hlast
      by_cases hin : npArgmax (dec prevSym hidden).symbolsDistribution < a.length
      · rw [if_pos hin] at hok hlast
        dsimp only at hok hlast
        rcases hrest : (decodeLoop dec a e n (dec prevSym hidden).curHidden
            (npArgmax (dec prevSym hidden).symbolsDistribution)
            (text ++ [a.getD (npArgmax (dec prevSym hidden).symbolsDistribution) default])).1
          with _ | ⟨x, xs⟩
        · rw [hrest] at hlast
          simp at hlast
          rw [← hlast] at heos
          simp at heos
          exact absurd heos heq
        · rw [hrest, List.getLast?_cons_cons] at hlast
          rw [← hrest] at hlast
          exact ih _ _ _ hok hlast
      · rw [if_neg hin] at hok
        simp at hok

/-- A decoder whose argmax never hits EOS and always stays inside the
alphabet makes the loop run for exactly `fuel` invocations, appending one
character per invocation. -/
theorem decodeLoop_no_eos (dec : Decoder) (a : List Char) (e : ℕ)
    (hdec : ∀ s hd, npArgmax (dec s hd).symbolsDistribution ≠ e ∧
      npArgmax (dec s hd).symbolsDistribution < a.length)
    (fuel : ℕ) (hidden : NpArray) (prevSym : ℕ) (text : List Char) :
    ∃ t h2, (decodeLoop dec a e fuel hidden prevSym text).2 = .ok (t, h2) ∧
      t.length = text.length + fuel ∧
      (decodeLoop dec a e fuel hidden prevSym text).1.length = fuel := by
  induction fuel generalizing hidden prevSym text with
  | zero => simp [decodeLoop]
  | succ n ih =>
    simp only [decodeLoop]
    obtain ⟨hne, hin⟩ := hdec prevSym hidden
    rw [if_neg hne, if_pos hin]
    dsimp only
    obtain ⟨t, h2, hok, hlen, htr⟩ := ih (dec prevSym hidden).curHidden
      (npArgmax (dec prevSym hidden).symbolsDistribution)
      (text ++ [a.getD (npArgmax (dec prevSym hidden).symbolsDistribution) default])
    refine ⟨t, h2, hok, ?_, ?_⟩
    · simp at hlen
      omega
    · simp only [List.length_cons, htr]

/-! ### Lemmas about per-instance processing -/

/-- A successful `predict` decodes exactly one text per detected instance,
in input order: `texts[i]` is the decoded text of feature map `i`. -/
theorem processFeatures_ok (cfg : SeqConfig) (enc : NpArray → NpArray)
    (dec : NpArray → Decoder) (fs : List NpArray) (ts : List (List Char))
    (hok : (processFeatures cfg enc dec fs).1 = .ok ts) :
    ts.length = fs.length ∧
      ∀ (i : ℕ) (f : NpArray), fs[i]? = some f →
        ∃ t, ts[i]? = some t ∧ instanceText cfg enc dec f = .ok t := by
  induction fs generalizing ts with
  | nil =>
    simp only [processFeatures] at hok
    simp at hok
    subst hok
    simp
  | cons f fs ih =>
    simp only [processFeatures] at hok
    cases hd : (decodeInstance cfg enc dec f).2 with
    | error e =>
      rw [hd] at hok
      simp at hok
    | ok p =>
      obtain ⟨text, hid⟩ := p
      rw [hd] at hok
      dsimp only at hok
      cases hr : (processFeatures cfg enc dec fs).1 with
      | error e =>
        rw [hr] at hok
        simp at hok
      | ok ts2 =>
        rw [hr] at hok
        simp at hok
        subst hok
        obtain ⟨hlen, hpt⟩ := ih ts2 hr
        constructor
        · simp [hlen]
        · intro i g hg
          cases i with
          | zero =>
            simp at hg
            subst hg
            exact ⟨text, by simp, by simp [instanceText, hd, Except.map]⟩
          | succ j =>
            rw [List.getElem?_cons_succ] at hg
            obtain ⟨t, ht, hit⟩ := hpt j g hg
            exact ⟨t, by simpa using ht, hit⟩

/-- Looking up a position of a `List.range`-mapped list. -/
theorem getD_map_range (f : ℕ → ℚ) (n i : ℕ) (h : i < n) :
    ((List.range n).map f).getD i 0 = f i := by
  rw [List.getD_eq_getElem?_getD, List.getElem?_map, List.getElem?_range h]
  rfl

/-- `np.transpose(·, (0, 2, 1))` swaps the last two axes of a rank-3
array: the output shape is `[s0, s2, s1]` and entry `(i, j, k)` of the
output is entry `(i, k, j)` of the input. -/
theorem transpose021_spec (d : List ℚ) (s0 s1 s2 i j k : ℕ)
    (hi : i < s0) (hj : j < s2) (hk : k < s1) :
    (transpose021 ⟨[s0, s1, s2], d⟩).shape = [s0, s2, s1] ∧
      (transpose021 ⟨[s0, s1, s2], d⟩).get3 i j k =
        (⟨[s0, s1, s2], d⟩ : NpArray).get3 i k j := by
  have hs1pos : 0 < s2 * s1 := by
    have := Nat.mul_lt_mul_of_lt_of_lt hj hk
    omega
  have h1 : j * s1 + k < s2 * s1 := by
    calc j * s1 + k < j * s1 + s1 := by omega
      _ = (j + 1) * s1 := by ring
      _ ≤ s2 * s1 := Nat.mul_le_mul_right _ (by omega)
  have hN : i * (s2 * s1) + j * s1 + k = j * s1 + k + i * (s2 * s1) := by ring
  have hbound : i * (s2 * s1) + j * s1 + k < s0 * s2 * s1 := by
    have h2 : i * (s2 * s1) + j * s1 + k < (i + 1) * (s2 * s1) := by
      have : (i + 1) * (s2 * s1) = i * (s2 * s1) + s2 * s1 := by ring
      omega
    have h3 : (i + 1) * (s2 * s1) ≤ s0 * (s2 * s1) := Nat.mul_le_mul_right _ (by omega)
    have h4 : s0 * (s2 * s1) = s0 * s2 * s1 := by ring
    omega
  have hdiv : (i * (s2 * s1) + j * s1 + k) / (s2 * s1) = i := by
    rw [hN, Nat.add_mul_div_right _ _ hs1pos, Nat.div_eq_of_lt h1]
    omega
  have hmod : (i * (s2 * s1) + j * s1 + k) % (s2 * s1) = j * s1 + k := by
    rw [hN, Nat.add_mul_mod_self_right, Nat.mod_eq_of_lt h1]
  have hk2 : (j * s1 + k) % s1 = k := by
    have : j * s1 + k = k + j * s1 := by ring
    rw [this, Nat.add_mul_mod_self_right, Nat.mod_eq_of_lt hk]
  have hj2 : (j * s1 + k) / s1 = j := by
    have hs1 : 0 < s1 := by omega
    have : j * s1 + k = k + j * s1 := by ring
    rw [this, Nat.add_mul_div_right _ _ hs1, Nat.div_eq_of_lt hk]
    omega
  constructor
  · simp [transpose021]
  · simp only [transpose021, NpArray.get3, List.getD_cons_zero, List.getD_cons_succ]
    rw [getD_map_range _ _ _ hbound]
    rw [hdiv, hmod, hk2, hj2]

/-- `np.transpose(·, (0, 3, 1, 2))` moves the last axis of a rank-4 array
to position 1: the output shape is `[s0, s3, s1, s2]` and entry
`(i, j, k, l)` of the output is entry `(i, k, l, j)` of the input. -/
theorem transpose0312_spec (d : List ℚ) (s0 s1 s2 s3 i j k l : ℕ)
    (hi : i < s0) (hj : j < s3) (hk : k < s1) (hl : l < s2) :
    (transpose0312 ⟨[s0, s1, s2, s3], d⟩).shape = [s0, s3, s1, s2] ∧
      (transpose0312 ⟨[s0, s1, s2, s3], d⟩).get4 i j k l =
        (⟨[s0, s1, s2, s3], d⟩ : NpArray).get4 i k l j := by
  have h1 : k * s2 + l < s1 * s2 := by
    calc k * s2 + l < k * s2 + s2 := by omega
      _ = (k + 1) * s2 := by ring
      _ ≤ s1 * s2 := Nat.mul_le_mul_right _ (by omega)
  have hpos12 : 0 < s1 * s2 := by omega
  have h2 : j * (s1 * s2) + (k * s2 + l) < s3 * (s1 * s2) := by
    calc j * (s1 * s2) + (k * s2 + l) < j * (s1 * s2) + s1 * s2 := by omega
      _ = (j + 1) * (s1 * s2) := by ring
      _ ≤ s3 * (s1 * s2) := Nat.mul_le_mul_right _ (by omega)
  have hpos312 : 0 < s3 * (s1 * s2) := by omega
  have hassoc : s3 * s1 * s2 = s3 * (s1 * s2) := by ring
  have hN : ((i * s3 + j) * s1 + k) * s2 + l =
      j * (s1 * s2) + (k * s2 + l) + i * (s3 * (s1 * s2)) := by ring
  have hbound : ((i * s3 + j) * s1 + k) * s2 + l < s0 * s3 * s1 * s2 := by
    have h3 : (i + 1) * (s3 * (s1 * s2)) ≤ s0 * (s3 * (s1 * s2)) :=
      Nat.mul_le_mul_right _ (by omega)
    have h4 : s0 * (s3 * (s1 * s2)) = s0 * s3 * s1 * s2 := by ring
    have h5 : (i + 1) * (s3 * (s1 * s2)) = i * (s3 * (s1 * s2)) + s3 * (s1 * s2) := by
      ring
    omega
  have hdiv : (((i * s3 + j) * s1 + k) * s2 + l) / (s3 * s1 * s2) = i := by
    rw [hassoc, hN, Nat.add_mul_div_right _ _ hpos312, Nat.div_eq_of_lt h2]
    omega
  have hmod : (((i * s3 + j) * s1 + k) * s2 + l) % (s3 * s1 * s2) =
      j * (s1 * s2) + (k * s2 + l) := by
    rw [hassoc, hN, Nat.add_mul_mod_self_right, Nat.mod_eq_of_lt h2]
  have hj2 : (j * (s1 * s2) + (k * s2 + l)) / (s1 * s2) = j := by
    have hc : j * (s1 * s2) + (k * s2 + l) = k * s2 + l + j * (s1 * s2) := by ring
    rw [hc, Nat.add_mul_div_right _ _ hpos12, Nat.div_eq_of_lt h1]
    omega
  have hr2 : (j * (s1 * s2) + (k * s2 + l)) % (s1 * s2) = k * s2 + l := by
    have hc : j * (s1 * s2) + (k * s2 + l) = k * s2 + l + j * (s1 * s2) := by ring
    rw [hc, Nat.add_mul_mod_self_right, Nat.mod_eq_of_lt h1]
  have hs2pos : 0 < s2 := by omega
  have hk2 : (k * s2 + l) / s2 = k := by
    have hc : k * s2 + l = l + k * s2 := by ring
    rw [hc, Nat.add_mul_div_right _ _ hs2pos, Nat.div_eq_of_lt hl]
    omega
  have hl2 : (k * s2 + l) % s2 = l := by
    have hc : k * s2 + l = l + k * s2 := by ring
    rw [hc, Nat.add_mul_mod_self_right, Nat.mod_eq_of_lt hl]
  constructor
  · simp [transpose0312]
  · simp only [transpose0312, NpArray.get4, List.getD_cons_zero, List.getD_cons_succ]
    rw [getD_map_range _ _ _ hbound]
    rw [hdiv, hmod, hj2, hr2, hk2, hl2]

/-! ### Claim theorems -/

/-- C1 (counterexample): the decode loop of `SequentialModel.predict` CAN
append `alphabet[sos_index]`: the loop only tests the argmax symbol index
against `eos_index`, so a decoder whose argmax is `sos_index` (here 0,
with `eos_index = 2`) gets the character at the SOS position appended.
Concretely the decoded text is the SOS character twice, while the claimed
no-control-character text is empty. -/
theorem claim_C1_counterexample :
    (decodeInstance cfgS idEnc (constDec [1, 0, 0]) feat0).2 =
        .ok (['s', 's'], npZeros [1]) ∧
      cfgS.alphabet.get? cfgS.sosIndex = some 's' ∧
      ¬ (['s', 's'] =
        (decodeInstance cfgS idEnc (constDec [1, 0, 0]) feat0).1.filterMap
          (fun r => if r.symbolIdx = cfgS.eosIndex ∨ r.symbolIdx = cfgS.sosIndex
            then none else cfgS.alphabet.get? r.symbolIdx)) := by
  decide

/-- C1 (amended): across every decoded instance and every decode step,
the decoding loop of `SequentialModel.predict` never appends the character
`alphabet[eos_index]` drawn from the EOS position: the decoded text
consists exactly of the alphabet characters at the non-EOS argmax indices
of the decoder-invocation trace. The character at `alphabet[sos_index]`
IS appended whenever the decoder's argmax equals `sos_index` (and
`sos_index ≠ eos_index`), since the loop has no SOS guard. -/
theorem claim_C1_amended (cfg : SeqConfig) (enc : NpArray → NpArray)
    (dec : NpArray → Decoder) (feature : NpArray) (t : List Char) (h2 : NpArray)
    (hok : (decodeInstance cfg enc dec feature).2 = .ok (t, h2)) :
    t = (decodeInstance cfg enc dec feature).1.filterMap
      (fun r => if r.symbolIdx = cfg.eosIndex then none
        else cfg.alphabet.get? r.symbolIdx) := by
  have hmain := decodeLoop_text_eq (dec (encoderContext (enc feature))) cfg.alphabet
    cfg.eosIndex cfg.maxSeqLen (npZeros cfg.hiddenShape) cfg.sosIndex [] t h2 hok
  simpa [decodeInstance] using hmain

/-- Witness for C1 (amended) at a concrete decoder stub emitting symbol 1
twice. -/
theorem claim_C1_amended_witness :
    (['x', 'x'] : List Char) =
      (decodeInstance cfgS idEnc (constDec [0, 1, 0]) feat0).1.filterMap
        (fun r => if r.symbolIdx = cfgS.eosIndex then none
          else cfgS.alphabet.get? r.symbolIdx) :=
  claim_C1_amended cfgS idEnc (constDec [0, 1, 0]) feat0 ['x', 'x'] (npZeros [1])
    (by decide)

/-- C2 (counterexample): "stops before reaching `max_seq_len` steps iff
some step's argmax equals `eos_index`" fails at the boundary: with
`max_seq_len = 1` and a decoder emitting EOS at step 1, the loop performs
exactly `max_seq_len` decoder invocations (so it does NOT stop before
reaching `max_seq_len` steps), yet a step's argmax equals `eos_index`. -/
theorem claim_C2_counterexample :
    ¬ (((decodeInstance cfgE idEnc (constDec [0, 0, 1]) feat0).1.length <
        cfgE.maxSeqLen) ↔
      (∃ r ∈ (decodeInstance cfgE idEnc (constDec [0, 0, 1]) feat0).1,
        r.symbolIdx = cfgE.eosIndex)) := by
  decide

/-- C2 (amended): per instance the decoding loop executes at most
`max_seq_len` decoder invocations; it stops before reaching `max_seq_len`
invocations iff some invocation STRICTLY BEFORE the `max_seq_len`-th has
argmax symbol index equal to `eos_index` (an EOS exactly at the
`max_seq_len`-th invocation stops the loop without making it early); and
with `max_seq_len = 3` and a decoder whose argmax never equals
`eos_index` (and stays inside the alphabet), the decoded text has exactly
3 characters. -/
theorem claim_C2_amended (cfg : SeqConfig) (enc : NpArray → NpArray)
    (dec : NpArray → Decoder) (feature : NpArray) (t : List Char) (h2 : NpArray)
    (hok : (decodeInstance cfg enc dec feature).2 = .ok (t, h2)) :
    (decodeInstance cfg enc dec feature).1.length ≤ cfg.maxSeqLen ∧
    ((decodeInstance cfg enc dec feature).1.length < cfg.maxSeqLen ↔
      ∃ (i : ℕ) (r : StepRec), (decodeInstance cfg enc dec feature).1[i]? = some r ∧
        r.symbolIdx = cfg.eosIndex ∧ i + 1 < cfg.maxSeqLen) ∧
    (cfg.maxSeqLen = 3 →
      (∀ (s : ℕ) (hd : NpArray),
        npArgmax ((dec (encoderContext (enc feature))) s hd).symbolsDistribution ≠
          cfg.eosIndex ∧
        npArgmax ((dec (encoderContext (enc feature))) s hd).symbolsDistribution <
          cfg.alphabet.length) →
      t.length = 3) := by
  refine ⟨?_, ⟨?_, ?_⟩, ?_⟩
  · simpa [decodeInstance] using decodeLoop_trace_length_le
      (dec (encoderContext (enc feature))) cfg.alphabet cfg.eosIndex cfg.maxSeqLen
      (npZeros cfg.hiddenShape) cfg.sosIndex []
  · intro hlt
    obtain ⟨last, hlast, heos⟩ := decodeLoop_early_stop
      (dec (encoderContext (enc feature))) cfg.alphabet cfg.eosIndex cfg.maxSeqLen
      (npZeros cfg.hiddenShape) cfg.sosIndex [] t h2 hok (by simpa [decodeInstance] using hlt)
    have hne : (decodeInstance cfg enc dec feature).1 ≠ [] := by
      intro hnil
      rw [show (decodeInstance cfg enc dec feature).1 =
        (decodeLoop (dec (encoderContext (enc feature))) cfg.alphabet cfg.eosIndex
          cfg.maxSeqLen (npZeros cfg.hiddenShape) cfg.sosIndex []).1 from rfl] at hnil
      rw [hnil] at hlast
      simp at hlast
    have hlen1 : 0 < (decodeInstance cfg enc dec feature).1.length :=
      List.length_pos.mpr hne
    refine ⟨(decodeInstance cfg enc dec feature).1.length - 1, last, ?_, heos, by omega⟩
    have := hlast
    rw [List.getLast?_eq_getElem?] at this
    exact this
  · rintro ⟨i, r, hir, heos, hstep⟩
    have hi : i < (decodeInstance cfg enc dec feature).1.length := by
      rcases List.getElem?_eq_some.mp hir with ⟨hh, _⟩
      exact hh
    by_cases hmid : i < (decodeInstance cfg enc dec feature).1.length - 1
    · exfalso
      have hdl : i < (decodeInstance cfg enc dec feature).1.dropLast.length := by
        rw [List.length_dropLast]
        omega
      have hmem : r ∈ (decodeInstance cfg enc dec feature).1.dropLast := by
        have hget : (decodeInstance cfg enc dec feature).1.dropLast[i] = r := by
          rw [List.getElem_dropLast]
          rcases List.getElem?_eq_some.mp hir with ⟨hh, he⟩
          exact he
        rw [← hget]
        exact List.getElem_mem hdl
      exact decodeLoop_dropLast_ne_eos (dec (encoderContext (enc feature)))
        cfg.alphabet cfg.eosIndex cfg.maxSeqLen (npZeros cfg.hiddenShape)
        cfg.sosIndex [] r hmem heos
    · omega
  · intro h3 hdec
    obtain ⟨t2, hh2, htok, hlen, _⟩ := decodeLoop_no_eos
      (dec (encoderContext (enc feature))) cfg.alphabet cfg.eosIndex hdec
      cfg.maxSeqLen (npZeros cfg.hiddenShape) cfg.sosIndex []
    have hok2 : (decodeInstance cfg enc dec feature).2 = .ok (t2, hh2) := htok
    rw [hok] at hok2
    have ht : t = t2 := by
      have := hok2
      simp at this
      exact this.1
    rw [ht]
    simpa [h3] using hlen

/-- Witness for C2 (amended): a never-EOS decoder with `max_seq_len = 3`
performs at most 3 invocations and decodes exactly 3 characters. -/
theorem claim_C2_amended_witness :
    (decodeInstance cfg3 idEnc (constDec [0, 1, 0]) feat0).1.length ≤ cfg3.maxSeqLen ∧
      (['x', 'x', 'x'] : List Char).length = 3 := by
  have h := claim_C2_amended cfg3 idEnc (constDec [0, 1, 0]) feat0 ['x', 'x', 'x']
    (npZeros [1]) (by decide)
  exact ⟨h.1, h.2.2 rfl (fun _ _ =>
    (by decide : npArgmax [0, 1, 0] ≠ cfg3.eosIndex ∧
      npArgmax [0, 1, 0] < cfg3.alphabet.length))⟩

/-- C3: in the decode loop of `SequentialModel.predict`, (1) the hidden
state supplied to decoder invocation `k + 1` is exactly the `cur_hidden`
output of invocation `k`; (2) the hidden state supplied to the first
invocation is `np.zeros(hidden_shape)`, the all-zero tensor of the
decoder network's declared `prev_hidden` input shape; and (3) when an
invocation produces `eos_index` the loop exits with the hidden state fed
INTO that invocation, discarding its `cur_hidden` output. -/
theorem claim_C3 (cfg : SeqConfig) (enc : NpArray → NpArray)
    (dec : NpArray → Decoder) (feature : NpArray) (t : List Char) (h2 : NpArray)
    (hok : (decodeInstance cfg enc dec feature).2 = .ok (t, h2)) :
    (∀ (i : ℕ) (r0 r1 : StepRec),
        (decodeInstance cfg enc dec feature).1[i]? = some r0 →
        (decodeInstance cfg enc dec feature).1[i + 1]? = some r1 →
        r1.hiddenIn = r0.curHiddenOut) ∧
    (∀ r : StepRec, (decodeInstance cfg enc dec feature).1[0]? = some r →
        r.hiddenIn = npZeros cfg.hiddenShape ∧
        r.hiddenIn.shape = cfg.hiddenShape ∧
        r.hiddenIn.data = List.replicate cfg.hiddenShape.prod 0) ∧
    (∀ last : StepRec,
        (decodeInstance cfg enc dec feature).1.getLast? = some last →
        last.symbolIdx = cfg.eosIndex → h2 = last.hiddenIn) := by
  refine ⟨?_, ?_, ?_⟩
  · intro i r0 r1 h0 h1
    exact decodeLoop_threading (dec (encoderContext (enc feature))) cfg.alphabet
      cfg.eosIndex cfg.maxSeqLen (npZeros cfg.hiddenShape) cfg.sosIndex [] i r0 r1 h0 h1
  · intro r h0
    have hz := decodeLoop_head (dec (encoderContext (enc feature))) cfg.alphabet
      cfg.eosIndex cfg.maxSeqLen (npZeros cfg.hiddenShape) cfg.sosIndex [] r h0
    refine ⟨hz.1, ?_, ?_⟩
    · rw [hz.1]
      rfl
    · rw [hz.1]
      rfl
  · intro last hlast heos
    exact decodeLoop_eos_final_hidden (dec (encoderContext (enc feature))) cfg.alphabet
      cfg.eosIndex cfg.maxSeqLen (npZeros cfg.hiddenShape) cfg.sosIndex [] t h2 last
      hok hlast heos

/-- Witness for C3: a run that emits one character (carrying hidden state
`hidA` forward) and then EOS exits with `hidA`, the hidden state fed into
the EOS invocation, not the EOS invocation's own `cur_hidden` output. -/
theorem claim_C3_witness :
    hidA = StepRec.hiddenIn ⟨hidA, 1, 2, hidB⟩ := by
  have h := claim_C3 cfgS idEnc decC3 feat0 ['x'] hidA (by decide)
  exact h.2.2 ⟨hidA, 1, 2, hidB⟩ (by decide) (by decide)

/-- C4: when `SequentialModel.predict` succeeds on a detector result with
`N` per-instance feature maps, the texts collection handed to the adapter
has length exactly `N`, and `texts[i]` is the text decoded from feature
map `i` (input order preserved); the returned prediction is the adapter
applied to the detector output and that collection. -/
theorem claim_C4 {M P : Type} (cfg : SeqConfig)
    (detector : NpArray → Except PredictError (DetectorOutput M) × ℕ)
    (encoder : NpArray → NpArray) (decoder : NpArray → Decoder)
    (adapter : DetectorOutput M → List (List Char) → P)
    (ids : List ℕ) (input : NpArray) (dout : DetectorOutput M) (n : ℕ) (p : P)
    (hids : ids.length = 1)
    (hdet : detector input = (.ok dout, n))
    (hres : (sequentialPredict cfg detector encoder decoder adapter ids input).1 = .ok p) :
    ∃ texts, (processFeatures cfg encoder decoder dout.textFeatures).1 = .ok texts ∧
      texts.length = dout.textFeatures.length ∧
      (∀ (i : ℕ) (f : NpArray), dout.textFeatures[i]? = some f →
        ∃ t, texts[i]? = some t ∧ instanceText cfg encoder decoder f = .ok t) ∧
      p = adapter dout texts := by
  simp only [sequentialPredict] at hres
  rw [if_pos hids, hdet] at hres
  dsimp only at hres
  cases hpf : (processFeatures cfg encoder decoder dout.textFeatures).1 with
  | error e =>
    rw [hpf] at hres
    simp at hres
  | ok texts =>
    rw [hpf] at hres
    simp at hres
    obtain ⟨hlen, hpt⟩ := processFeatures_ok cfg encoder decoder dout.textFeatures
      texts hpf
    exact ⟨texts, rfl, hlen, hpt, hres.symm⟩

/-- Witness for C4: one detected instance yields exactly one decoded
text. -/
theorem claim_C4_witness :
    ([['x', 'x']] : List (List Char)).length = detOut1.textFeatures.length := by
  obtain ⟨texts, h1, hlen, hpt, hp⟩ := claim_C4 cfgS det1 idEnc (constDec [0, 1, 0])
    (fun _ ts => ts) [0] feat0 detOut1 1 [['x', 'x']] rfl rfl (by decide)
  have hx : ([['x', 'x']] : List (List Char)) = texts := hp
  rw [← hx] at hlen
  exact hlen

/-- C5: for a raw encoder output of shape `(b, c, h, w)`,
`SequentialModel.predict` builds the encoder context by reshaping to
`(b, c, h*w)` and transposing axes `(0, 2, 1)`: the context has shape
`(b, h*w, c)` and `context[i, t, k] = raw[i, k, t / w, t % w]` (the
position axis is the middle axis); the decode of every instance invokes
the decoder on exactly this context; and the transformation is
deterministic: equal raw tensors give equal contexts. -/
theorem claim_C5 (raw : NpArray) (b c h w : ℕ)
    (hshape : raw.shape = [b, c, h, w]) (hb : 0 < b) (hc : 0 < c) :
    (encoderContext raw).shape = [b, h * w, c] ∧
    (∀ i t k, i < b → t < h * w → k < c →
      (encoderContext raw).get3 i t k = raw.get4 i k (t / w) (t % w)) ∧
    (∀ (cfg : SeqConfig) (enc : NpArray → NpArray) (dec : NpArray → Decoder)
      (feature : NpArray), decodeInstance cfg enc dec feature =
        decodeLoop (dec (encoderContext (enc feature))) cfg.alphabet cfg.eosIndex
          cfg.maxSeqLen (npZeros cfg.hiddenShape) cfg.sosIndex []) ∧
    (∀ raw2 : NpArray, raw2 = raw → encoderContext raw2 = encoderContext raw) := by
  have hbc : 0 < b * c := Nat.mul_pos hb hc
  have hr3 : reshapeKeepFirstTwo raw = ⟨[b, c, h * w], raw.data⟩ := by
    simp only [reshapeKeepFirstTwo, hshape, List.getD_cons_zero, List.getD_cons_succ]
    have hprod : ([b, c, h, w] : List ℕ).prod = b * c * (h * w) := by
      simp [List.prod_cons]
      ring
    rw [hprod, Nat.mul_div_cancel_left _ hbc]
  refine ⟨?_, ?_, ?_, ?_⟩
  · rw [encoderContext, hr3]
    simp [transpose021]
  · intro i t k hi ht hk
    rw [encoderContext, hr3]
    rw [(transpose021_spec raw.data b c (h * w) i t k hi ht hk).2]
    simp only [NpArray.get3, NpArray.get4, hshape, List.getD_cons_zero,
      List.getD_cons_succ]
    have hdm : w * (t / w) + t % w = t := Nat.div_add_mod t w
    have hidx : ((i * c + k) * h + t / w) * w + t % w =
        i * (c * (h * w)) + k * (h * w) + t := by
      calc ((i * c + k) * h + t / w) * w + t % w
          = (i * c + k) * (h * w) + (w * (t / w) + t % w) := by ring
        _ = (i * c + k) * (h * w) + t := by rw [hdm]
        _ = i * (c * (h * w)) + k * (h * w) + t := by ring
    rw [hidx]
  · intro cfg enc dec feature
    rfl
  · intro raw2 hr
    rw [hr]

/-- Witness for C5 at a concrete `(1, 2, 1, 2)` raw tensor: the context
has shape `(1, 2, 2)` and entry `(0, 1, 1)` equals raw entry
`(0, 1, 0, 1)`. -/
theorem claim_C5_witness :
    (encoderContext rawC).shape = [1, 1 * 2, 2] ∧
      (encoderContext rawC).get3 0 1 1 = rawC.get4 0 1 (1 / 2) (1 % 2) := by
  have h := claim_C5 rawC 1 2 1 2 rfl (by decide) (by decide)
  exact ⟨h.1, h.2.1 0 1 1 (by decide) (by decide) (by decide)⟩

/-- C6: a `predict` call whose batch is not a single image — more than
one identifier, a non-4-dimensional image tensor, or a batch dimension
different from 1 — is rejected with an assertion failure before any
backend inference is performed: the whole pipeline reports zero detector,
encoder and decoder inferences, and `DetectorDLSDKModel.predict` alone
likewise performs zero backend inferences on a bad image tensor. -/
theorem claim_C6 {M P : Type} (cfg : SeqConfig) (net : DetectorNet)
    (infer : List (String × NpArray) → DetectorOutput M)
    (enc : NpArray → NpArray) (dec : NpArray → Decoder)
    (adapter : DetectorOutput M → List (List Char) → P)
    (ids : List ℕ) (input : NpArray)
    (hbad : ids.length ≠ 1 ∨ input.shape.length ≠ 4 ∨ input.shape.getD 0 0 ≠ 1) :
    sequentialPredict cfg (fun im => detectorPredict net infer im) enc dec adapter
        ids input = (.error .assertionError, ⟨0, 0, 0⟩) ∧
    (input.shape.length ≠ 4 ∨ input.shape.getD 0 0 ≠ 1 →
      detectorPredict net infer input = (.error .assertionError, 0)) := by
  have hdet : input.shape.length ≠ 4 ∨ input.shape.getD 0 0 ≠ 1 →
      detectorPredict net infer input = (.error .assertionError, 0) := by
    intro hb
    simp only [detectorPredict]
    rcases hb with hb | hb
    · rw [if_neg hb]
    · by_cases h4 : input.shape.length = 4
      · rw [if_pos h4, if_neg hb]
      · rw [if_neg h4]
  refine ⟨?_, hdet⟩
  by_cases hid : ids.length = 1
  · have hb2 : input.shape.length ≠ 4 ∨ input.shape.getD 0 0 ≠ 1 := by
      rcases hbad with hbad | hbad | hbad
      · exact absurd hid hbad
      · exact Or.inl hbad
      · exact Or.inr hbad
    simp only [sequentialPredict]
    rw [if_pos hid, hdet hb2]
  · simp only [sequentialPredict]
    rw [if_neg hid]

/-- Witness for C6: two identifiers and a batch-2 image tensor are
rejected with zero backend inferences at both levels. -/
theorem claim_C6_witness :
    sequentialPredict cfgS (fun im => detectorPredict net0 (fun _ => detOut1) im)
        idEnc (constDec [0, 1, 0]) (fun _ ts => ts) [0, 1]
        ⟨[2, 1, 1, 1], [0, 0]⟩ = (.error .assertionError, ⟨0, 0, 0⟩) ∧
      detectorPredict net0 (fun _ => detOut1) ⟨[2, 1, 1, 1], [0, 0]⟩ =
        (.error .assertionError, 0) := by
  have h := claim_C6 cfgS net0 (fun _ => detOut1) idEnc (constDec [0, 1, 0])
    (fun _ ts => ts) [0, 1] ⟨[2, 1, 1, 1], [0, 0]⟩ (by decide)
  exact ⟨h.1, h.2 (by decide)⟩

/-- A successful `SequentialModel.__init__` implies that every required
`network_info` key was present. -/
theorem sequentialModelInit_ok (ni : NetworkInfo) (v : List Char × ℕ × ℕ × ℕ)
    (h : sequentialModelInit ni = .ok v) :
    ni.detector.isSome ∧ ni.recognizerEncoder.isSome ∧ ni.recognizerDecoder.isSome ∧
    ni.recognizerDecoderInputs.isSome ∧ ni.recognizerDecoderOutputs.isSome ∧
    ni.maxSeqLen.isSome ∧ ni.adapter.isSome ∧ ni.alphabet.isSome ∧
    ni.sosIndex.isSome ∧ ni.eosIndex.isSome := by
  simp only [sequentialModelInit] at h
  split at h
  case isFalse => simp at h
  case isTrue hall =>
    cases h1 : ni.recognizerDecoderInputs with
    | none => simp [h1] at h
    | some a1 =>
    cases h2 : ni.recognizerDecoderOutputs with
    | none => simp [h1, h2] at h
    | some a2 =>
    cases h3 : ni.maxSeqLen with
    | none => simp [h1, h2, h3] at h
    | some a3 =>
    cases h4 : ni.adapter with
    | none => simp [h1, h2, h3, h4] at h
    | some a4 =>
    cases h5 : ni.alphabet with
    | none => simp [h1, h2, h3, h4, h5] at h
    | some a5 =>
    cases h6 : ni.sosIndex with
    | none => simp [h1, h2, h3, h4, h5, h6] at h
    | some a6 =>
    cases h7 : ni.eosIndex with
    | none => simp [h1, h2, h3, h4, h5, h6, h7] at h
    | some a7 =>
      exact ⟨hall.1, hall.2.1, hall.2.2, by simp [h1], by simp [h2], by simp [h3],
        by simp [h4], by simp [h5], by simp [h6], by simp [h7]⟩

/-- C7: constructing `SequentialModel` from a `network_info` missing any
required key — the detector / encoder / decoder entries, the decoder
input or output name mappings, `max_seq_len`, `alphabet`, or the SOS/EOS
indices — fails at construction time: `__init__` raises the explicit
`ConfigError` of the `contains_all` check or the `KeyError` of a direct
missing-key lookup, so no model value is ever produced and no `predict`
can run. -/
theorem claim_C7 (ni : NetworkInfo)
    (hmiss : ni.detector.isNone ∨ ni.recognizerEncoder.isNone ∨
      ni.recognizerDecoder.isNone ∨ ni.recognizerDecoderInputs.isNone ∨
      ni.recognizerDecoderOutputs.isNone ∨ ni.maxSeqLen.isNone ∨
      ni.alphabet.isNone ∨ ni.sosIndex.isNone ∨ ni.eosIndex.isNone) :
    sequentialModelInit ni = .error .configError ∨
      sequentialModelInit ni = .error .keyError := by
  cases hinit : sequentialModelInit ni with
  | error e =>
    cases e
    · exact Or.inl rfl
    · exact Or.inr rfl
  | ok v =>
    exfalso
    have hall := sequentialModelInit_ok ni v hinit
    rcases hmiss with hm | hm | hm | hm | hm | hm | hm | hm | hm <;> simp_all

/-- Witness for C7: a `network_info` with every key present except
`eos_index` fails at construction. -/
theorem claim_C7_witness :
    sequentialModelInit ni0 = .error .configError ∨
      sequentialModelInit ni0 = .error .keyError :=
  claim_C7 ni0 (by decide)

/-- C8: for a channel-last input image of shape `(1, H, W, C)`,
`DetectorDLSDKModel.predict` transposes it with axes `(0, 3, 1, 2)` to
channel-first layout `(1, C, H, W)` (elementwise:
`out[0, j, k, l] = in[0, k, l, j]`), force-reshapes the result to the
network's declared image-input shape, and supplies the second info tensor
`[[H, W, 1.0]]`; the info input is the (first) network input with a
2-element declared shape and the image input the (first) one with a
4-element declared shape. -/
theorem claim_C8 (net : DetectorNet) (input : NpArray) (h w c : ℕ)
    (hshape : input.shape = [1, h, w, c]) (dn infn : String)
    (hdn : imDataName net = some dn) (hinf : imInfoName net = some infn) :
    (transpose0312 input).shape = [1, c, h, w] ∧
    (∀ j k l, j < c → k < h → l < w →
      (transpose0312 input).get4 0 j k l = input.get4 0 k l j) ∧
    (∀ fitted, fitToInput net dn input = .ok fitted →
      detectorFeed net input = .ok [(dn, fitted), (infn, imInfoTensor input)]) ∧
    (∀ e, fitToInput net dn input = .error e → detectorFeed net input = .error e) ∧
    fitToInput net dn input = npReshapeTo (transpose0312 input) (declaredShape net dn) ∧
    imInfoTensor input = ⟨[1, 3], [(h : ℚ), (w : ℚ), 1]⟩ ∧
    (∃ s, (infn, s) ∈ net.inputs ∧ s.length = 2) ∧
    (∃ s, (dn, s) ∈ net.inputs ∧ s.length = 4) := by
  obtain ⟨sh, d⟩ := input
  simp only at hshape
  subst hshape
  refine ⟨?_, ?_, ?_, ?_, rfl, ?_, ?_, ?_⟩
  · simp [transpose0312]
  · intro j k l hj hk hl
    exact (transpose0312_spec d 1 h w c 0 j k l (by omega) hj hk hl).2
  · intro fitted hfit
    simp only [detectorFeed, hdn, hinf, hfit]
    rfl
  · intro e hfit
    simp only [detectorFeed, hdn, hinf, hfit]
    rfl
  · simp [imInfoTensor]
  · simp only [imInfoName] at hinf
    cases hfl : net.inputs.filter (fun p => p.2.length = 2) with
    | nil =>
      rw [hfl] at hinf
      simp at hinf
    | cons pr rest =>
      rw [hfl] at hinf
      simp at hinf
      have hmem : pr ∈ net.inputs.filter (fun p => p.2.length = 2) := by
        rw [hfl]
        exact List.mem_cons_self pr rest
      obtain ⟨hm, hp⟩ := List.mem_filter.mp hmem
      refine ⟨pr.2, ?_, by simpa using hp⟩
      rw [← hinf]
      simpa using hm
  · simp only [imDataName] at hdn
    cases hfl : net.inputs.filter (fun p => p.2.length = 4) with
    | nil =>
      rw [hfl] at hdn
      simp at hdn
    | cons pr rest =>
      rw [hfl] at hdn
      simp at hdn
      have hmem : pr ∈ net.inputs.filter (fun p => p.2.length = 4) := by
        rw [hfl]
        exact List.mem_cons_self pr rest
      obtain ⟨hm, hp⟩ := List.mem_filter.mp hmem
      refine ⟨pr.2, ?_, by simpa using hp⟩
      rw [← hdn]
      simpa using hm

/-- Witness for C8 on a concrete network and a `(1, 2, 2, 2)` image. -/
theorem claim_C8_witness :
    (transpose0312 ⟨[1, 2, 2, 2], [0, 1, 2, 3, 4, 5, 6, 7]⟩).shape = [1, 2, 2, 2] ∧
      imInfoTensor ⟨[1, 2, 2, 2], [0, 1, 2, 3, 4, 5, 6, 7]⟩ =
        ⟨[1, 3], [(2 : ℚ), (2 : ℚ), 1]⟩ := by
  have hcl := claim_C8 net0 ⟨[1, 2, 2, 2], [0, 1, 2, 3, 4, 5, 6, 7]⟩ 2 2 2 rfl
    "im_data" "im_info" (by decide) (by decide)
  exact ⟨hcl.1, hcl.2.2.2.2.2.1⟩

/-- C9: on a non-EOS decode step, the loop indexes the alphabet with the
argmax symbol index without any bounds guard: when the index is a valid
alphabet position the corresponding character is appended and the loop
continues with the updated hidden state, and when the index is at least
the alphabet length the step raises `IndexError`; an erroring instance
decode makes the whole `predict` call return that error, so no partial
texts collection is ever attached. -/
theorem claim_C9 :
    (∀ (dl : Decoder) (a : List Char) (e fuel : ℕ) (hidden : NpArray)
      (prevSym : ℕ) (text : List Char),
      npArgmax (dl prevSym hidden).symbolsDistribution ≠ e →
      ((npArgmax (dl prevSym hidden).symbolsDistribution < a.length →
        decodeLoop dl a e (fuel + 1) hidden prevSym text =
          (⟨hidden, prevSym, npArgmax (dl prevSym hidden).symbolsDistribution,
              (dl prevSym hidden).curHidden⟩ ::
            (decodeLoop dl a e fuel (dl prevSym hidden).curHidden
              (npArgmax (dl prevSym hidden).symbolsDistribution)
              (text ++ [a.getD (npArgmax (dl prevSym hidden).symbolsDistribution)
                default])).1,
           (decodeLoop dl a e fuel (dl prevSym hidden).curHidden
              (npArgmax (dl prevSym hidden).symbolsDistribution)
              (text ++ [a.getD (npArgmax (dl prevSym hidden).symbolsDistribution)
                default])).2)) ∧
       (a.length ≤ npArgmax (dl prevSym hidden).symbolsDistribution →
        (decodeLoop dl a e (fuel + 1) hidden prevSym text).2 =
          .error .indexError))) ∧
    (∀ (cfg : SeqConfig) (enc : NpArray → NpArray) (dec : NpArray → Decoder)
      (f : NpArray) (fs : List NpArray) (e2 : PredictError),
      (decodeInstance cfg enc dec f).2 = .error e2 →
      (processFeatures cfg enc dec (f :: fs)).1 = .error e2) ∧
    (∀ (M P : Type) (cfg : SeqConfig)
      (detector : NpArray → Except PredictError (DetectorOutput M) × ℕ)
      (enc : NpArray → NpArray) (dec : NpArray → Decoder)
      (adapter : DetectorOutput M → List (List Char) → P)
      (ids : List ℕ) (input : NpArray) (dout : DetectorOutput M) (n : ℕ)
      (e2 : PredictError),
      ids.length = 1 → detector input = (.ok dout, n) →
      (processFeatures cfg enc dec dout.textFeatures).1 = .error e2 →
      (sequentialPredict cfg detector enc dec adapter ids input).1 = .error e2) := by
  refine ⟨?_, ?_, ?_⟩
  · intro dl a e fuel hidden prevSym text hne
    constructor
    · intro hin
      simp only [decodeLoop]
      rw [if_neg hne, if_pos hin]
    · intro hge
      simp only [decodeLoop]
      rw [if_neg hne, if_neg (by omega :
        ¬ npArgmax (dl prevSym hidden).symbolsDistribution < a.length)]
  · intro cfg enc dec f fs e2 herr
    simp only [processFeatures, herr]
  · intro M P cfg detector enc dec adapter ids input dout n e2 hids hdet hpf
    simp only [sequentialPredict]
    rw [if_pos hids, hdet]
    dsimp only
    rw [hpf]

/-- Witness for C9: a decoder emitting symbol 1 against a one-character
alphabet raises `IndexError` at the decode step, the instance loop, and
the whole `predict` call. -/
theorem claim_C9_witness :
    (decodeLoop (constDec [0, 1] (encoderContext (idEnc feat0))) cfgBad.alphabet
        cfgBad.eosIndex 2 (npZeros [1]) 0 []).2 = .error .indexError ∧
      (processFeatures cfgBad idEnc (constDec [0, 1]) [feat0]).1 =
        .error .indexError ∧
      (sequentialPredict cfgBad det1 idEnc (constDec [0, 1]) (fun _ ts => ts)
        [0] feat0).1 = .error .indexError := by
  have h := claim_C9
  refine ⟨?_, ?_, ?_⟩
  · exact (h.1 (constDec [0, 1] (encoderContext (idEnc feat0))) cfgBad.alphabet
      cfgBad.eosIndex 1 (npZeros [1]) 0 [] (by decide)).2 (by decide)
  · exact h.2.1 cfgBad idEnc (constDec [0, 1]) feat0 [] .indexError (by decide)
  · exact h.2.2 Unit (List (List Char)) cfgBad det1 idEnc (constDec [0, 1])
      (fun _ ts => ts) [0] feat0 detOut1 1 .indexError rfl rfl (by decide)

/-- C10: with a detector output containing zero per-instance feature maps,
`SequentialModel.predict` still succeeds: no encoder or decoder backend
inference is performed, the empty texts collection is attached, and the
adapter's result is returned. -/
theorem claim_C10 {M P : Type} (cfg : SeqConfig)
    (detector : NpArray → Except PredictError (DetectorOutput M) × ℕ)
    (enc : NpArray → NpArray) (dec : NpArray → Decoder)
    (adapter : DetectorOutput M → List (List Char) → P)
    (ids : List ℕ) (input : NpArray) (dout : DetectorOutput M) (n : ℕ)
    (hids : ids.length = 1) (hdet : detector input = (.ok dout, n))
    (hempty : dout.textFeatures = []) :
    sequentialPredict cfg detector enc dec adapter ids input =
      (.ok (adapter dout []), ⟨n, 0, 0⟩) := by
  simp only [sequentialPredict]
  rw [if_pos hids, hdet]
  dsimp only
  rw [hempty]
  rfl

/-- Witness for C10: an empty detection yields the adapter result on an
empty texts collection with zero encoder and decoder inferences. -/
theorem claim_C10_witness :
    sequentialPredict cfgS detEmpty idEnc (constDec [0, 1, 0]) (fun _ ts => ts)
      [0] feat0 = (.ok [], ⟨1, 0, 0⟩) :=
  claim_C10 cfgS detEmpty idEnc (constDec [0, 1, 0]) (fun _ ts => ts) [0] feat0
    ⟨[], ()⟩ 1 rfl rfl rfl
